import Mathlib

/-!
Verification of the `str` string-utility module of coost (`src/include/co/str.h`).

Strings are modelled as `List Char`.  The header under `src/` declares
`str::split`, `str::replace` and the `str::to_*` parsers but their bodies live
in a translation unit that is not part of the provided sources, and the inline
`str::trim` / `str::from` wrappers delegate to `fastring` members that are
likewise absent; those operations are therefore modelled from the spec
(sections 4.1-4.4 of spec.md).  The `str::dbg` and `str::cat` templates are
fully inline in the header and are embedded from the source.
-/

namespace Str

/-- Error code EINVAL, as used by the conversion functions' error slot. -/
def EINVAL : Nat := 22

/-- Error code ERANGE, as used by the conversion functions' error slot. -/
def ERANGE : Nat := 34

/-- Prepend a character to the first segment of a segment list (the scanning
loop of `split` extends the current segment; an empty list gets a fresh
singleton segment). -/
def consHead (x : Char) : List (List Char) → List (List Char)
  | [] => [[x]]
  | t :: ts => (x :: t) :: ts

/-- Modelled from the spec: the raw segment list produced by `str::split`
(declared in `src/include/co/str.h`, implemented outside the provided
sources).  The delimiter is the non-empty string `dh :: dt`; scanning is left
to right, each delimiter occurrence is a split point, `n = 0` means unlimited,
and when `n > 0` the scan stops after `n` splits, leaving the remainder of the
source verbatim as the final raw segment.  A trailing empty segment is still
present here; `split` drops it. -/
def rawSplit (dh : Char) (dt : List Char) (n : Nat) (l : List Char) : List (List Char) :=
  match l with
  | [] => [[]]
  | x :: xs =>
    if (dh :: dt).isPrefixOf (x :: xs) then
      if n = 1 then [[], xs.drop dt.length]
      else [] :: rawSplit dh dt (n - 1) (xs.drop dt.length)
    else
      consHead x (rawSplit dh dt n xs)
termination_by l.length
decreasing_by
  all_goals simp [List.length_drop]
  all_goals omega

/-- Modelled from the spec: drop the single trailing empty segment that arises
when the source ends exactly on a delimiter; leading and interior empty
segments are kept. -/
def dropTrailingEmpty (v : List (List Char)) : List (List Char) :=
  if 2 ≤ v.length ∧ v.getLast? = some [] then v.dropLast else v

/-- Modelled from the spec: `str::split(s, c, n)` with a single-character
delimiter. -/
def split (s : List Char) (c : Char) (n : Nat) : List (List Char) :=
  dropTrailingEmpty (rawSplit c [] n s)

/-- Modelled from the spec: `str::split(s, d, n)` with a multi-character
delimiter.  The spec requires a non-empty delimiter; an empty one is treated
as "not found" (whole source as the single segment). -/
def splitStr (s : List Char) (d : List Char) (n : Nat) : List (List Char) :=
  match d with
  | [] => [s]
  | dh :: dt => dropTrailingEmpty (rawSplit dh dt n s)

/-- Join a list of segments with a delimiter in between (the inverse view of
splitting, used to state that segments appear in left-to-right occurrence
order). -/
def joinWith (d : List Char) : List (List Char) → List Char
  | [] => []
  | [x] => x
  | x :: y :: ts => x ++ d ++ joinWith d (y :: ts)

/-- Modelled from the spec: the scanning loop of `str::replace` (declared in
`src/include/co/str.h`, implemented outside the provided sources) for a
non-empty substring `sh :: st`.  Leftmost-first, non-overlapping matching;
each match is consumed before scanning continues past its end; `n = 0` means
unlimited, and when `n > 0` the scan stops after `n` replacements, keeping the
rest of the source verbatim. -/
def replaceGo (sh : Char) (st rep : List Char) (n : Nat) (l : List Char) : List Char :=
  match l with
  | [] => []
  | x :: xs =>
    if (sh :: st).isPrefixOf (x :: xs) then
      if n = 1 then rep ++ xs.drop st.length
      else rep ++ replaceGo sh st rep (n - 1) (xs.drop st.length)
    else
      x :: replaceGo sh st rep n xs
termination_by l.length
decreasing_by
  all_goals simp [List.length_drop]
  all_goals omega

/-- Modelled from the spec: `str::replace(s, sub, to, n)`.  An empty `sub` is
a defined no-op returning the source unchanged. -/
def replace (s sub rep : List Char) (n : Nat) : List Char :=
  match sub with
  | [] => s
  | sh :: st => replaceGo sh st rep n s

/-- The canonical whitespace set trimmed by default: space, tab, CR, LF. -/
def whitespace : List Char := [' ', '\t', '\r', '\n']

/-- Modelled from the spec: remove the maximal run of characters of `cs` from
the left edge (`fastring::trim` with direction 'l'; `fastring` is outside the
provided sources). -/
def ltrim (cs s : List Char) : List Char :=
  s.dropWhile (fun x => cs.contains x)

/-- Modelled from the spec: remove the maximal run of characters of `cs` from
the right edge (`fastring::trim` with direction 'r'). -/
def rtrim (cs s : List Char) : List Char :=
  (s.reverse.dropWhile (fun x => cs.contains x)).reverse

/-- Modelled from the spec: `str::trim(s, c, d)` with direction 'l', 'r' or
'b' (both); any other direction value behaves as 'b'. -/
def trim (s cs : List Char) (d : Char) : List Char :=
  if d = 'l' then ltrim cs s
  else if d = 'r' then rtrim cs s
  else ltrim cs (rtrim cs s)

/-- Modelled from the spec: `str::trim(s)` with its default arguments — the
whitespace set and direction 'b'. -/
def trimD (s : List Char) : List Char := trim s whitespace 'b'

/-- A decimal digit character. -/
def isDig (c : Char) : Bool := 48 ≤ c.toNat && c.toNat ≤ 57

/-- Numeric value of a decimal digit character. -/
def digitVal (c : Char) : Nat := c.toNat - 48

/-- Modelled from the spec: parse a non-empty all-digit string into a natural
number (the digit loop shared by the `str::to_*` integer parsers, which are
declared in `src/include/co/str.h` and implemented outside the provided
sources).  No implicit whitespace trimming: any non-digit character makes the
input malformed. -/
def parseDigits (l : List Char) : Option Nat :=
  if l ≠ [] ∧ l.all isDig then
    some (l.foldl (fun acc c => acc * 10 + digitVal c) 0)
  else none

/-- Modelled from the spec: signed decimal parse — an optional leading sign
followed by one or more digits. -/
def parseSigned (s : List Char) : Option Int :=
  match s with
  | [] => none
  | c :: rest =>
    if c = '-' then Option.map (fun n : Nat => -(n : Int)) (parseDigits rest)
    else if c = '+' then Option.map (fun n : Nat => (n : Int)) (parseDigits rest)
    else Option.map (fun n : Nat => (n : Int)) (parseDigits (c :: rest))

/-- Modelled from the spec: a signed integer parser returning the value and
the error slot: `(v, 0)` on success, `(0, EINVAL)` when malformed,
`(0, ERANGE)` when the value lies outside `[lo, hi]`. -/
def toSigned (lo hi : Int) (s : List Char) : Int × Nat :=
  match parseSigned s with
  | none => (0, EINVAL)
  | some v => if v < lo ∨ hi < v then (0, ERANGE) else (v, 0)

/-- Modelled from the spec: an unsigned integer parser (no sign accepted)
returning the value and the error slot. -/
def toUnsigned (hi : Nat) (s : List Char) : Nat × Nat :=
  match parseDigits s with
  | none => (0, EINVAL)
  | some v => if hi < v then (0, ERANGE) else (v, 0)

/-- Modelled from the spec: `str::to_int32`. -/
def to_int32 (s : List Char) : Int × Nat := toSigned (-(2 ^ 31)) (2 ^ 31 - 1) s

/-- Modelled from the spec: `str::to_int64`. -/
def to_int64 (s : List Char) : Int × Nat := toSigned (-(2 ^ 63)) (2 ^ 63 - 1) s

/-- Modelled from the spec: `str::to_uint32`. -/
def to_uint32 (s : List Char) : Nat × Nat := toUnsigned (2 ^ 32 - 1) s

/-- Modelled from the spec: `str::to_uint64`. -/
def to_uint64 (s : List Char) : Nat × Nat := toUnsigned (2 ^ 64 - 1) s

/-- The grammar of an integer literal per the spec (section 4.4): an optional
leading sign followed by one or more decimal digits, with no surrounding
whitespace. -/
def isIntLexeme (s : List Char) : Bool :=
  match s with
  | [] => false
  | c :: rest =>
    if c = '-' ∨ c = '+' then decide (rest ≠ []) && rest.all isDig
    else (c :: rest).all isDig

/-- The grammar of an unsigned integer literal per the spec: one or more
decimal digits, no sign. -/
def isNatLexeme (s : List Char) : Bool :=
  decide (s ≠ []) && s.all isDig

/-- Digit-extraction loop for decimal rendering, with explicit fuel so that
the definition is structurally recursive; `natDigits` supplies enough fuel,
and `natDigits_eq` below recovers the natural recurrence. -/
def natDigitsGo (fuel n : Nat) : List Char :=
  match fuel with
  | 0 => []
  | fuel + 1 =>
    if n < 10 then [Nat.digitChar n]
    else natDigitsGo fuel (n / 10) ++ [Nat.digitChar (n % 10)]

/-- Modelled from the spec: decimal rendering of a natural number, as the
stream-output operator of `fastring` (outside the provided sources) produces
for unsigned integers. -/
def natDigits (n : Nat) : List Char := natDigitsGo (n + 1) n

/-- Modelled from the spec: `str::from` for signed integers — the canonical
decimal rendering, with a leading '-' for negative values. -/
def fromInt (i : Int) : List Char :=
  if i < 0 then '-' :: natDigits i.natAbs else natDigits i.natAbs

/-- Modelled from the spec: `str::from` for unsigned integers. -/
def fromNat (n : Nat) : List Char := natDigits n

/-- From the source (`str::xx::dbg` for `const char*`, `fastring` and
`std::string`): a string value is rendered wrapped in double quotes, with no
escaping. -/
def dbgStr (s : List Char) : List Char := '"' :: (s ++ ['"'])

/-- From the source (`str::xx::dbg`, generic overload `fs << t`): a scalar
streams directly; for integers the stream rendering is modelled from the spec
as canonical decimal. -/
def dbgInt (i : Int) : List Char := fromInt i

/-- From the source (`str::xx::dbg` for `std::pair`): `key:value`, each side
rendered recursively by the given renderers. -/
def dbgPair (fk : α → List Char) (fv : β → List Char) (x : α × β) : List Char :=
  fk x.1 ++ ':' :: fv x.2

/-- Overwrite the last character of a non-empty buffer (`fastring::back() = c`
in the source loop). -/
def setBack (s : List Char) (c : Char) : List Char := s.dropLast ++ [c]

/-- From the source (`str::xx::dbg(beg, end, c1, c2, fs)`): an empty range
appends `c1 c2`; otherwise `c1` is appended, every element is rendered
followed by a separator `','`, and the final separator is overwritten by
`c2`. -/
def dbgRange (f : α → List Char) (l : List α) (c1 c2 : Char) (fs : List Char) : List Char :=
  match l with
  | [] => fs ++ [c1, c2]
  | _ :: _ => setBack (l.foldl (fun acc e => acc ++ f e ++ [',']) (fs ++ [c1])) c2

/-- From the source (`str::dbg` for sequence containers): render into a fresh
buffer between `c1` and `c2`. -/
def dbg (f : α → List Char) (l : List α) (c1 c2 : Char) : List Char :=
  dbgRange f l c1 c2 []

/-- Join rendered elements with a single `','` between consecutive elements —
the comma-separated form the spec describes for container rendering. -/
def commaJoin : List (List Char) → List Char
  | [] => []
  | [x] => x
  | x :: y :: ts => x ++ ',' :: commaJoin (y :: ts)

/-- From the source (`str::xx::cat`): append the rendering of each argument
to the buffer in order; `f` is the stream-output rendering of one argument. -/
def catGo (f : α → List Char) (s : List Char) : List α → List Char
  | [] => s
  | x :: v => catGo f (s ++ f x) v

/-- From the source (`str::cat`): start from an empty buffer (`str::cat()`
returns `fastring()`, i.e. the empty string) and append every argument's
rendering left to right. -/
def cat (f : α → List Char) (l : List α) : List Char := catGo f [] l

/-- From the source (`str::from`): render a single value into a fresh buffer
via the stream-output operator — the same rendering `cat` uses per
argument. -/
def fromVal (f : α → List Char) (x : α) : List Char := f x

/-! ## Helper lemmas for splitting -/

theorem consHead_ne_nil (x : Char) (v : List (List Char)) : consHead x v ≠ [] := by
  cases v <;> simp [consHead]

theorem consHead_length (x : Char) (v : List (List Char)) (hv : v ≠ []) :
    (consHead x v).length = v.length := by
  cases v with
  | nil => simp at hv
  | cons t ts => simp [consHead]

theorem consHead_append (x : Char) (v w : List (List Char)) (hv : v ≠ []) :
    consHead x (v ++ w) = consHead x v ++ w := by
  cases v with
  | nil => simp at hv
  | cons t ts => simp [consHead]

theorem rawSplit_ne_nil (dh : Char) (dt : List Char) (n : Nat) (l : List Char) :
    rawSplit dh dt n l ≠ [] := by
  induction n, l using rawSplit.induct dh dt with
  | case1 n => simp [rawSplit]
  | case2 x xs h => simp [rawSplit, h]
  | case3 n x xs h hn ih => simp [rawSplit, h, hn]
  | case4 n x xs h ih =>
    rw [rawSplit, if_neg h]
    exact consHead_ne_nil x _

theorem joinWith_cons (d s : List Char) (v : List (List Char)) (hv : v ≠ []) :
    joinWith d (s :: v) = s ++ d ++ joinWith d v := by
  cases v with
  | nil => simp at hv
  | cons y ts => simp [joinWith]

theorem joinWith_consHead (d : List Char) (x : Char) (v : List (List Char)) (hv : v ≠ []) :
    joinWith d (consHead x v) = x :: joinWith d v := by
  cases v with
  | nil => simp at hv
  | cons t ts =>
    cases ts with
    | nil => simp [consHead, joinWith]
    | cons u us => simp [consHead, joinWith]

theorem prefix_drop_eq (dh x : Char) (dt xs : List Char)
    (h : (dh :: dt).isPrefixOf (x :: xs) = true) :
    dh :: (dt ++ xs.drop dt.length) = x :: xs := by
  have h2 := List.prefix_iff_eq_append.mp (List.isPrefixOf_iff_prefix.mp h)
  simpa using h2

theorem rawSplit_join (dh : Char) (dt : List Char) (n : Nat) (l : List Char) :
    joinWith (dh :: dt) (rawSplit dh dt n l) = l := by
  induction n, l using rawSplit.induct dh dt with
  | case1 n => simp [rawSplit, joinWith]
  | case2 x xs h =>
    rw [rawSplit, if_pos h, if_pos rfl]
    rw [joinWith]
    simpa using prefix_drop_eq dh x dt xs h
  | case3 n x xs h hn ih =>
    rw [rawSplit, if_pos h, if_neg hn]
    rw [joinWith_cons _ _ _ (rawSplit_ne_nil dh dt (n - 1) (xs.drop dt.length))]
    rw [ih]
    simpa using prefix_drop_eq dh x dt xs h
  | case4 n x xs h ih =>
    rw [rawSplit, if_neg h]
    rw [joinWith_consHead _ _ _ (rawSplit_ne_nil dh dt n xs)]
    rw [ih]

theorem singletonPrefixOf_cons (c x : Char) (xs : List Char) :
    ([c].isPrefixOf (x :: xs) = true) = (c = x) := by
  simp [List.isPrefixOf_iff_prefix, List.cons_prefix_cons]

theorem rawSplitc_cons_delim (c : Char) (xs : List Char) (n : Nat) (hn : n ≠ 1) :
    rawSplit c [] n (c :: xs) = [] :: rawSplit c [] (n - 1) xs := by
  rw [rawSplit, if_pos (by simp [singletonPrefixOf_cons]), if_neg hn]
  simp

theorem rawSplitc_cons_delim_one (c : Char) (xs : List Char) :
    rawSplit c [] 1 (c :: xs) = [[], xs] := by
  rw [rawSplit, if_pos (by simp [singletonPrefixOf_cons]), if_pos rfl]
  simp

theorem rawSplitc_cons_other (c x : Char) (xs : List Char) (n : Nat) (hx : c ≠ x) :
    rawSplit c [] n (x :: xs) = consHead x (rawSplit c [] n xs) := by
  rw [rawSplit, if_neg (by simp [singletonPrefixOf_cons, hx])]

theorem rawSplit_length_unlimited (c : Char) (l : List Char) :
    (rawSplit c [] 0 l).length = l.count c + 1 := by
  induction l with
  | nil => simp [rawSplit]
  | cons x xs ih =>
    by_cases hx : c = x
    · subst hx
      rw [rawSplitc_cons_delim c xs 0 (by omega)]
      simp [List.count_cons, ih]
    · rw [rawSplitc_cons_other c x xs 0 hx]
      rw [consHead_length _ _ (rawSplit_ne_nil c [] 0 xs)]
      have hx2 : ¬ x = c := fun h2 => hx h2.symm
      simp [List.count_cons, hx2, ih]

theorem rawSplit_length_limited (c : Char) (l : List Char) (n : Nat) (hn : 0 < n) :
    (rawSplit c [] n l).length = min (l.count c) n + 1 := by
  induction l generalizing n with
  | nil => simp [rawSplit]
  | cons x xs ih =>
    by_cases hx : c = x
    · subst hx
      by_cases h1 : n = 1
      · subst h1
        rw [rawSplitc_cons_delim_one]
        simp [List.count_cons]
      · rw [rawSplitc_cons_delim c xs n h1]
        rw [List.length_cons, ih (n - 1) (by omega)]
        simp only [List.count_cons, if_pos rfl]
        simp
        omega
    · rw [rawSplitc_cons_other c x xs n hx]
      rw [consHead_length _ _ (rawSplit_ne_nil c [] n xs)]
      have hx2 : ¬ x = c := fun h2 => hx h2.symm
      simp [List.count_cons, hx2, ih n hn]

theorem rawSplit_length_le (dh : Char) (dt : List Char) (n : Nat) (l : List Char)
    (hn : 0 < n) : (rawSplit dh dt n l).length ≤ n + 1 := by
  induction n, l using rawSplit.induct dh dt with
  | case1 n => simp [rawSplit]
  | case2 x xs h => rw [rawSplit, if_pos h, if_pos rfl]; simp
  | case3 n x xs h hn2 ih =>
    rw [rawSplit, if_pos h, if_neg hn2]
    have := ih (by omega)
    simp only [List.length_cons]
    omega
  | case4 n x xs h ih =>
    rw [rawSplit, if_neg h]
    rw [consHead_length _ _ (rawSplit_ne_nil dh dt n xs)]
    exact ih hn

theorem rawSplit_append_delim (c : Char) (l : List Char) :
    rawSplit c [] 0 (l ++ [c]) = rawSplit c [] 0 l ++ [[]] := by
  induction l with
  | nil =>
    rw [List.nil_append, rawSplitc_cons_delim c [] 0 (by omega)]
    simp [rawSplit]
  | cons x xs ih =>
    by_cases hx : c = x
    · subst hx
      rw [List.cons_append, rawSplitc_cons_delim c (xs ++ [c]) 0 (by omega)]
      rw [rawSplitc_cons_delim c xs 0 (by omega)]
      simp only [Nat.zero_sub] at ih ⊢
      rw [ih]
      simp
    · rw [List.cons_append, rawSplitc_cons_other c x (xs ++ [c]) 0 hx]
      rw [rawSplitc_cons_other c x xs 0 hx]
      rw [ih, consHead_append _ _ _ (rawSplit_ne_nil c [] 0 xs)]

theorem joinWith_concat (d : List Char) (v : List (List Char)) (w : List Char)
    (hv : v ≠ []) : joinWith d (v ++ [w]) = joinWith d v ++ d ++ w := by
  induction v with
  | nil => simp at hv
  | cons t ts ih =>
    cases ts with
    | nil => simp [joinWith]
    | cons u us =>
      rw [List.cons_append]
      rw [joinWith_cons _ _ _ (by simp)]
      rw [joinWith_cons _ _ _ (by simp)]
      rw [ih (by simp)]
      simp

theorem split_trailing_dropped (c : Char) (l : List Char) :
    split (l ++ [c]) c 0 = rawSplit c [] 0 l := by
  rw [split, rawSplit_append_delim, dropTrailingEmpty]
  rw [if_pos]
  · simp
  · constructor
    · have := rawSplit_ne_nil c [] 0 l
      have hlen : 1 ≤ (rawSplit c [] 0 l).length := List.length_pos.mpr this
      simp
      omega
    · simp

theorem split_eq_raw_of_getLast_ne (c : Char) (l : List Char)
    (h : l.getLast? ≠ some c) : split l c 0 = rawSplit c [] 0 l := by
  rw [split, dropTrailingEmpty, if_neg]
  rintro ⟨hlen, hlast⟩
  rcases List.eq_nil_or_concat (rawSplit c [] 0 l) with hnil | ⟨v, w, hvw⟩
  · exact rawSplit_ne_nil c [] 0 l hnil
  · rw [List.concat_eq_append] at hvw
    have hw : w = [] := by
      rw [hvw] at hlast
      rw [List.getLast?_concat] at hlast
      exact Option.some.inj hlast
    have hv : v ≠ [] := by
      intro hveq
      rw [hvw, hveq] at hlen
      simp at hlen
    have hl := rawSplit_join c [] 0 l
    rw [hvw, hw, joinWith_concat _ _ _ hv] at hl
    apply h
    rw [← hl]
    simp [List.getLast?_concat]

theorem rawSplit_head_prefix (dh : Char) (dt : List Char) (n : Nat) (xs : List Char)
    (t : List Char) (ts : List (List Char)) (h : rawSplit dh dt n xs = t :: ts) :
    t <+: xs := by
  have hj := rawSplit_join dh dt n xs
  rw [h] at hj
  cases ts with
  | nil =>
    rw [joinWith] at hj
    exact hj ▸ List.prefix_refl t
  | cons u us =>
    rw [joinWith_cons _ _ _ (by simp)] at hj
    exact ⟨(dh :: dt) ++ joinWith (dh :: dt) (u :: us), by rw [← hj]; simp⟩

theorem not_prefix_nil (dh : Char) (dt : List Char) : ¬ (dh :: dt) <+: ([] : List Char) := by
  intro hp
  have := hp.length_le
  simp at this

theorem rawSplit_cons_match (dh : Char) (dt : List Char) (x : Char) (xs : List Char)
    (n : Nat) (h : (dh :: dt).isPrefixOf (x :: xs) = true) (hn : n ≠ 1) :
    rawSplit dh dt n (x :: xs) = [] :: rawSplit dh dt (n - 1) (xs.drop dt.length) := by
  rw [rawSplit, if_pos h, if_neg hn]

theorem rawSplit_cons_nomatch (dh : Char) (dt : List Char) (x : Char) (xs : List Char)
    (n : Nat) (h : ¬ (dh :: dt).isPrefixOf (x :: xs) = true) :
    rawSplit dh dt n (x :: xs) = consHead x (rawSplit dh dt n xs) := by
  rw [rawSplit, if_neg h]

theorem rawSplit_no_occ_unlimited (dh : Char) (dt : List Char) (l : List Char) :
    ∀ seg ∈ rawSplit dh dt 0 l, ∀ i, ¬ (dh :: dt) <+: seg.drop i := by
  suffices H : ∀ N (l : List Char), l.length = N →
      ∀ seg ∈ rawSplit dh dt 0 l, ∀ i, ¬ (dh :: dt) <+: seg.drop i from
    H l.length l rfl
  intro N
  induction N using Nat.strong_induction_on with
  | _ N ih =>
  intro l hN
  cases l with
  | nil =>
    intro seg hseg i
    simp [rawSplit] at hseg
    subst hseg
    simp [not_prefix_nil]
  | cons x xs =>
    intro seg hseg i
    by_cases h : (dh :: dt).isPrefixOf (x :: xs) = true
    · rw [rawSplit_cons_match dh dt x xs 0 h (by omega)] at hseg
      rcases List.mem_cons.mp hseg with h1 | h2
      · subst h1
        simp [not_prefix_nil]
      · exact ih (xs.drop dt.length).length
          (by subst hN; simp [List.length_drop]; omega) _ rfl seg h2 i
      
    · rw [rawSplit_cons_nomatch dh dt x xs 0 h] at hseg
      rcases h2 : rawSplit dh dt 0 xs with _ | ⟨t, ts⟩
      · exact absurd h2 (rawSplit_ne_nil dh dt 0 xs)
      · rw [h2] at hseg
        simp only [consHead] at hseg
        have ihxs := ih xs.length (by subst hN; simp) xs rfl
        rcases List.mem_cons.mp hseg with h3 | h4
        · subst h3
          cases i with
          | zero =>
            intro hp
            apply h
            rw [List.isPrefixOf_iff_prefix]
            have ht : t <+: xs := rawSplit_head_prefix dh dt 0 xs t ts h2
            have hxt : x :: t <+: x :: xs := List.cons_prefix_cons.mpr ⟨rfl, ht⟩
            exact (by simpa using hp : (dh :: dt) <+: x :: t).trans hxt
          | succ j =>
            simp only [List.drop_succ_cons]
            exact ihxs t (h2 ▸ List.mem_cons_self t ts) j
        · exact ihxs seg (h2 ▸ List.mem_cons_of_mem t h4) i

theorem rawSplit_no_occ_dropLast (dh : Char) (dt : List Char) (n : Nat) (l : List Char) :
    ∀ seg ∈ (rawSplit dh dt n l).dropLast, ∀ i, ¬ (dh :: dt) <+: seg.drop i := by
  induction n, l using rawSplit.induct dh dt with
  | case1 n =>
    intro seg hseg
    simp [rawSplit] at hseg
  | case2 x xs h =>
    intro seg hseg i
    rw [rawSplit, if_pos h, if_pos rfl] at hseg
    simp at hseg
    subst hseg
    simp [not_prefix_nil]
  | case3 n x xs h hn ih =>
    intro seg hseg i
    rw [rawSplit_cons_match dh dt x xs n h hn] at hseg
    rw [List.dropLast_cons_of_ne_nil (rawSplit_ne_nil dh dt (n - 1) (xs.drop dt.length))]
      at hseg
    rcases List.mem_cons.mp hseg with h1 | h2
    · subst h1
      simp [not_prefix_nil]
    · exact ih seg h2 i
  | case4 n x xs h ih =>
    intro seg hseg i
    rw [rawSplit_cons_nomatch dh dt x xs n h] at hseg
    rcases h2 : rawSplit dh dt n xs with _ | ⟨t, ts⟩
    · exact absurd h2 (rawSplit_ne_nil dh dt n xs)
    · rw [h2] at hseg
      simp only [consHead] at hseg
      rw [h2] at ih
      cases ts with
      | nil => simp at hseg
      | cons u us =>
        rw [List.dropLast_cons_of_ne_nil (by simp)] at hseg
        rw [List.dropLast_cons_of_ne_nil (by simp)] at ih
        rcases List.mem_cons.mp hseg with h3 | h4
        · subst h3
          cases i with
          | zero =>
            intro hp
            apply h
            rw [List.isPrefixOf_iff_prefix]
            have ht : t <+: xs := rawSplit_head_prefix dh dt n xs t (u :: us) h2
            have hxt : x :: t <+: x :: xs := List.cons_prefix_cons.mpr ⟨rfl, ht⟩
            exact (by simpa using hp : (dh :: dt) <+: x :: t).trans hxt
          | succ j =>
            simp only [List.drop_succ_cons]
            exact ih t (List.mem_cons_self t _) j
        · exact ih seg (List.mem_cons_of_mem t h4) i

theorem mem_imp_prefix_drop (c : Char) (s : List Char) (h : c ∈ s) :
    ∃ i, [c] <+: s.drop i := by
  induction s with
  | nil => simp at h
  | cons x xs ih =>
    rcases List.mem_cons.mp h with h1 | h2
    · subst h1
      exact ⟨0, by simp [List.cons_prefix_cons]⟩
    · obtain ⟨i, hi⟩ := ih h2
      exact ⟨i + 1, by simpa using hi⟩

/-! ## Claim theorems -/

/-- Claim C1: for every string and single- or multi-character delimiter,
unlimited `split` returns the segments in left-to-right occurrence order
(joining them back with the delimiter reconstructs the source, and no segment
contains the delimiter), keeping the leading and all interior empty segments
(the result is exactly the raw segment list except for the trailing rule) and
dropping the single trailing empty segment that arises when the source ends
exactly on a delimiter; in particular `split("x y z", ' ') = ["x","y","z"]`,
`split("|x|y|", '|') = ["","x","y"]` and `split("xooy", "oo") = ["x","y"]`. -/
theorem split_spec_C1 :
    (∀ (c : Char) (l : List Char), joinWith [c] (rawSplit c [] 0 l) = l) ∧
    (∀ (c : Char) (l : List Char), ∀ seg ∈ rawSplit c [] 0 l, c ∉ seg) ∧
    (∀ (dh : Char) (dt l : List Char), joinWith (dh :: dt) (rawSplit dh dt 0 l) = l) ∧
    (∀ (dh : Char) (dt l : List Char), ∀ seg ∈ rawSplit dh dt 0 l,
      ∀ i, ¬ (dh :: dt) <+: seg.drop i) ∧
    (∀ (c : Char) (l : List Char), split (l ++ [c]) c 0 = rawSplit c [] 0 l) ∧
    (∀ (c : Char) (l : List Char), l.getLast? ≠ some c → split l c 0 = rawSplit c [] 0 l) ∧
    split "x y z".toList ' ' 0 = ["x".toList, "y".toList, "z".toList] ∧
    split "|x|y|".toList '|' 0 = ["".toList, "x".toList, "y".toList] ∧
    splitStr "xooy".toList "oo".toList 0 = ["x".toList, "y".toList] := by
  refine ⟨fun c l => rawSplit_join c [] 0 l, ?_,
    fun dh dt l => rawSplit_join dh dt 0 l,
    fun dh dt l => rawSplit_no_occ_unlimited dh dt l,
    fun c l => split_trailing_dropped c l,
    fun c l h => split_eq_raw_of_getLast_ne c l h, ?_, ?_, ?_⟩
  · intro c l seg hseg hc
    obtain ⟨i, hi⟩ := mem_imp_prefix_drop c seg hc
    exact rawSplit_no_occ_unlimited c [] l seg hseg i hi
  · simp [split, rawSplit, dropTrailingEmpty, consHead, List.isPrefixOf]
  · simp [split, rawSplit, dropTrailingEmpty, consHead, List.isPrefixOf]
  · simp [splitStr, rawSplit, dropTrailingEmpty, consHead, List.isPrefixOf]

/-- Witness for C1: the trailing-empty-drop rule and the no-drop rule applied
at concrete inputs. -/
theorem split_spec_C1_witness :
    split "ab".toList 'z' 0 = rawSplit 'z' [] 0 "ab".toList :=
  split_spec_C1.2.2.2.2.2.1 'z' "ab".toList (by decide)

/-- Claim C2: `split(s, d, 0)` splits at every delimiter occurrence (for a
character delimiter the number of segments is the occurrence count plus one);
`split(s, d, n)` with `n > 0` performs at most `n` splits (for a character
delimiter exactly `min(count, n)` splits), and the remainder of the source,
embedded delimiters included, becomes the final segment verbatim: joining the
raw segments with the delimiter always reconstructs the source and only the
final raw segment may contain the delimiter; in particular
`split("xooy", 'o', 1) = ["x", "oy"]`. -/
theorem split_spec_C2 :
    (∀ (c : Char) (l : List Char), (rawSplit c [] 0 l).length = l.count c + 1) ∧
    (∀ (c : Char) (l : List Char) (n : Nat), 0 < n →
      (rawSplit c [] n l).length = min (l.count c) n + 1) ∧
    (∀ (dh : Char) (dt : List Char) (n : Nat) (l : List Char), 0 < n →
      (rawSplit dh dt n l).length ≤ n + 1) ∧
    (∀ (dh : Char) (dt : List Char) (n : Nat) (l : List Char),
      joinWith (dh :: dt) (rawSplit dh dt n l) = l) ∧
    (∀ (dh : Char) (dt : List Char) (n : Nat) (l : List Char),
      ∀ seg ∈ (rawSplit dh dt n l).dropLast, ∀ i, ¬ (dh :: dt) <+: seg.drop i) ∧
    split "xooy".toList 'o' 1 = ["x".toList, "oy".toList] := by
  refine ⟨fun c l => rawSplit_length_unlimited c l,
    fun c l n hn => rawSplit_length_limited c l n hn,
    fun dh dt n l hn => rawSplit_length_le dh dt n l hn,
    fun dh dt n l => rawSplit_join dh dt n l,
    fun dh dt n l => rawSplit_no_occ_dropLast dh dt n l, ?_⟩
  simp [split, rawSplit, dropTrailingEmpty, consHead, List.isPrefixOf]

/-- Witness for C2: the bounded-split count applied at a concrete input. -/
theorem split_spec_C2_witness :
    (rawSplit 'o' [] 1 "xooy".toList).length = min ("xooy".toList.count 'o') 1 + 1 :=
  split_spec_C2.2.1 'o' "xooy".toList 1 (by decide)

/-! ## Helper lemmas for replace -/

theorem replace_cons_sub (s : List Char) (sh : Char) (st rep : List Char) (n : Nat) :
    replace s (sh :: st) rep n = replaceGo sh st rep n s := rfl

theorem replaceGo_cons_match (sh x : Char) (st rep xs : List Char) (n : Nat)
    (h : (sh :: st).isPrefixOf (x :: xs) = true) (hn : n ≠ 1) :
    replaceGo sh st rep n (x :: xs) = rep ++ replaceGo sh st rep (n - 1) (xs.drop st.length) := by
  rw [replaceGo, if_pos h, if_neg hn]

theorem replaceGo_cons_match_one (sh x : Char) (st rep xs : List Char)
    (h : (sh :: st).isPrefixOf (x :: xs) = true) :
    replaceGo sh st rep 1 (x :: xs) = rep ++ xs.drop st.length := by
  rw [replaceGo, if_pos h, if_pos rfl]

theorem replaceGo_cons_nomatch (sh x : Char) (st rep xs : List Char) (n : Nat)
    (h : ¬ (sh :: st).isPrefixOf (x :: xs) = true) :
    replaceGo sh st rep n (x :: xs) = x :: replaceGo sh st rep n xs := by
  rw [replaceGo, if_neg h]

theorem replace_leftmost (sh : Char) (st rep a b : List Char) (n : Nat)
    (hleft : ∀ i < a.length, ¬ (sh :: st) <+: (a ++ (sh :: st) ++ b).drop i) :
    replace (a ++ (sh :: st) ++ b) (sh :: st) rep n =
      a ++ rep ++ (if n = 1 then b else replace b (sh :: st) rep (n - 1)) := by
  induction a with
  | nil =>
    simp only [List.nil_append]
    rw [replace_cons_sub, replace_cons_sub]
    have hpre : (sh :: st).isPrefixOf (sh :: (st ++ b)) = true := by
      rw [List.isPrefixOf_iff_prefix]
      exact List.cons_prefix_cons.mpr ⟨rfl, List.prefix_append st b⟩
    by_cases h1 : n = 1
    · subst h1
      rw [show sh :: st ++ b = sh :: (st ++ b) from rfl,
        replaceGo_cons_match_one sh sh st rep (st ++ b) hpre]
      simp [List.drop_left]
    · rw [show sh :: st ++ b = sh :: (st ++ b) from rfl,
        replaceGo_cons_match sh sh st rep (st ++ b) n hpre h1]
      rw [if_neg h1]
      simp [List.drop_left]
  | cons x a2 ih =>
    have h0 := hleft 0 (by simp)
    simp only [List.drop_zero] at h0
    have hguard : ¬ (sh :: st).isPrefixOf (x :: (a2 ++ (sh :: st) ++ b)) = true := by
      rw [List.isPrefixOf_iff_prefix]
      simpa using h0
    rw [show (x :: a2) ++ (sh :: st) ++ b = x :: (a2 ++ (sh :: st) ++ b) by simp]
    rw [replace_cons_sub, replaceGo_cons_nomatch sh x st rep _ n hguard]
    rw [← replace_cons_sub]
    rw [ih (fun i hi => by
      have := hleft (i + 1) (by simpa using Nat.succ_lt_succ hi)
      simpa using this)]
    simp

/-- Claim C3: `replace(s, sub, to, n)` with a non-empty `sub` replaces
occurrences leftmost-first and non-overlapping, consuming each match before
scanning continues past its end, with `n = 0` unlimited and `n > 0` bounding
the number of replacements: whenever `sub` first occurs at position `|a|` in
`a ++ sub ++ b`, the result is `a ++ to` followed by the bounded replacement
of `b`; in particular `replace("xooxoox","oo","ee") = "xeexeex"` and
`replace("xooxoox","oo","ee",1) = "xeexoox"`. -/
theorem replace_spec_C3 :
    (∀ (sh : Char) (st rep a b : List Char) (n : Nat),
      (∀ i < a.length, ¬ (sh :: st) <+: (a ++ (sh :: st) ++ b).drop i) →
      replace (a ++ (sh :: st) ++ b) (sh :: st) rep n =
        a ++ rep ++ (if n = 1 then b else replace b (sh :: st) rep (n - 1))) ∧
    replace "xooxoox".toList "oo".toList "ee".toList 0 = "xeexeex".toList ∧
    replace "xooxoox".toList "oo".toList "ee".toList 1 = "xeexoox".toList := by
  refine ⟨fun sh st rep a b n h => replace_leftmost sh st rep a b n h, ?_, ?_⟩
  · simp [replace, replaceGo, List.isPrefixOf]
  · simp [replace, replaceGo, List.isPrefixOf]

/-- Witness for C3: the leftmost-decomposition rule applied at a concrete
input (`a = "x"`, `sub = "oo"`, `b = "xoox"`, unlimited). -/
theorem replace_spec_C3_witness :
    replace ("x".toList ++ ('o' :: "o".toList) ++ "xoox".toList)
        ('o' :: "o".toList) "ee".toList 0 =
      "x".toList ++ "ee".toList ++
        (if (0 : Nat) = 1 then "xoox".toList
         else replace "xoox".toList ('o' :: "o".toList) "ee".toList (0 - 1)) :=
  replace_spec_C3.1 'o' "o".toList "ee".toList "x".toList "xoox".toList 0 (by decide)

/-- Claim C4: `replace` with an empty substring argument is a no-op returning
the source unchanged. -/
theorem replace_spec_C4 :
    ∀ (s rep : List Char) (n : Nat), replace s [] rep n = s :=
  fun _ _ _ => rfl

/-! ## Helper lemmas for trim -/

theorem head_dropWhile_not (p : Char → Bool) (l : List Char) (c : Char)
    (h : (l.dropWhile p).head? = some c) : p c = false := by
  induction l with
  | nil => simp [List.dropWhile] at h
  | cons x xs ih =>
    rw [List.dropWhile_cons] at h
    by_cases hp : p x = true
    · simp only [hp, if_true] at h
      exact ih h
    · simp only [Bool.not_eq_true] at hp
      simp [hp] at h
      subst h
      exact hp

theorem dropWhile_eq_self_of_head (p : Char → Bool) (l : List Char)
    (h : ∀ c, l.head? = some c → p c = false) : l.dropWhile p = l := by
  cases l with
  | nil => rfl
  | cons x xs =>
    rw [List.dropWhile_cons]
    simp [h x rfl]

theorem ltrim_decomp (cs s : List Char) :
    s.takeWhile (fun x => cs.contains x) ++ ltrim cs s = s :=
  List.takeWhile_append_dropWhile (fun x => cs.contains x) s

theorem ltrim_head_not (cs s : List Char) (c : Char)
    (h : (ltrim cs s).head? = some c) : cs.contains c = false :=
  head_dropWhile_not _ s c h

theorem rtrim_decomp (cs s : List Char) :
    rtrim cs s ++ (s.reverse.takeWhile (fun x => cs.contains x)).reverse = s := by
  rw [rtrim, ← List.reverse_append, List.takeWhile_append_dropWhile, List.reverse_reverse]

theorem rtrim_getLast_not (cs s : List Char) (c : Char)
    (h : (rtrim cs s).getLast? = some c) : cs.contains c = false := by
  rw [rtrim, List.getLast?_reverse] at h
  exact head_dropWhile_not _ s.reverse c h

theorem ltrim_idem (cs s : List Char) : ltrim cs (ltrim cs s) = ltrim cs s :=
  dropWhile_eq_self_of_head _ _ (fun c hc => ltrim_head_not cs s c hc)

theorem rtrim_eq_self_of_getLast (cs l : List Char)
    (h : ∀ c, l.getLast? = some c → cs.contains c = false) : rtrim cs l = l := by
  rw [rtrim, dropWhile_eq_self_of_head _ _ (fun c hc => by
    rw [List.head?_reverse] at hc
    exact h c hc)]
  exact List.reverse_reverse l

theorem rtrim_idem (cs s : List Char) : rtrim cs (rtrim cs s) = rtrim cs s :=
  rtrim_eq_self_of_getLast cs _ (fun c hc => rtrim_getLast_not cs s c hc)

theorem ltrim_getLast_not (cs t : List Char) (c : Char)
    (h : (ltrim cs t).getLast? = some c) : t.getLast? = some c := by
  have hne : ltrim cs t ≠ [] := by
    intro hnil
    rw [hnil] at h
    simp at h
  have := ltrim_decomp cs t
  rw [← this, List.getLast?_append_of_ne_nil _ hne]
  exact h

theorem rtrim_ltrim_rtrim (cs s : List Char) :
    rtrim cs (ltrim cs (rtrim cs s)) = ltrim cs (rtrim cs s) :=
  rtrim_eq_self_of_getLast cs _ (fun c hc =>
    rtrim_getLast_not cs s c (ltrim_getLast_not cs _ c hc))

theorem both_idem (cs s : List Char) :
    ltrim cs (rtrim cs (ltrim cs (rtrim cs s))) = ltrim cs (rtrim cs s) := by
  rw [rtrim_ltrim_rtrim, ltrim_idem]

/-- Claim C8: `trim(s, c, d)` removes the maximal run of characters of the
set from the left edge for `d = 'l'` (the removed part is exactly the longest
prefix inside the set and the first remaining character is outside it), from
the right edge for `d = 'r'` (symmetrically), and from both edges for
`d = 'b'`; the default character set is {space, tab, CR, LF} and the default
direction is both; in particular `trim(" xx\r\n") = "xx"`,
`trim("abxxa","ab") = "xx"`, `trim("abxxa","ab",'l') = "xxa"` and
`trim("abxxa","ab",'r') = "abxx"`. -/
theorem trim_spec_C8 :
    (∀ cs s : List Char, s.takeWhile (fun x => cs.contains x) ++ trim s cs 'l' = s) ∧
    (∀ (cs s : List Char) (c : Char),
      (trim s cs 'l').head? = some c → cs.contains c = false) ∧
    (∀ cs s : List Char,
      trim s cs 'r' ++ (s.reverse.takeWhile (fun x => cs.contains x)).reverse = s) ∧
    (∀ (cs s : List Char) (c : Char),
      (trim s cs 'r').getLast? = some c → cs.contains c = false) ∧
    (∀ cs s : List Char, trim s cs 'b' = ltrim cs (rtrim cs s)) ∧
    (∀ s : List Char, trimD s = trim s whitespace 'b') ∧
    trimD " xx\r\n".toList = "xx".toList ∧
    trim "abxxa".toList "ab".toList 'b' = "xx".toList ∧
    trim "abxxa".toList "ab".toList 'l' = "xxa".toList ∧
    trim "abxxa".toList "ab".toList 'r' = "abxx".toList := by
  have hl : ∀ cs s : List Char, trim s cs 'l' = ltrim cs s := by
    intro cs s
    rw [trim, if_pos rfl]
  have hr : ∀ cs s : List Char, trim s cs 'r' = rtrim cs s := by
    intro cs s
    rw [trim, if_neg (by decide), if_pos rfl]
  refine ⟨?_, ?_, ?_, ?_, ?_, fun s => rfl, by decide, by decide, by decide, by decide⟩
  · intro cs s
    rw [hl]
    exact ltrim_decomp cs s
  · intro cs s c h
    rw [hl] at h
    exact ltrim_head_not cs s c h
  · intro cs s
    rw [hr]
    exact rtrim_decomp cs s
  · intro cs s c h
    rw [hr] at h
    exact rtrim_getLast_not cs s c h
  · intro cs s
    rw [trim, if_neg (by decide), if_neg (by decide)]

/-- Witness for C8: the maximality conditions applied at a concrete input. -/
theorem trim_spec_C8_witness :
    List.contains "a".toList 'x' = false :=
  trim_spec_C8.2.1 "a".toList "ax".toList 'x' (by decide)

/-- Claim C9: with the same character-set and direction arguments, trimming
is idempotent. -/
theorem trim_spec_C9 :
    ∀ (s cs : List Char) (d : Char), trim (trim s cs d) cs d = trim s cs d := by
  intro s cs d
  by_cases hld : d = 'l'
  · subst hld
    simp only [trim, if_pos rfl]
    exact ltrim_idem cs s
  · by_cases hrd : d = 'r'
    · subst hrd
      simp only [trim, if_neg (by decide : ¬ ('r' : Char) = 'l'), if_pos rfl]
      exact rtrim_idem cs s
    · simp only [trim, if_neg hld, if_neg hrd]
      exact both_idem cs s

/-! ## Helper lemmas for the converters -/

theorem natDigitsGo_congr (n f1 f2 : Nat) (h1 : n < f1) (h2 : n < f2) :
    natDigitsGo f1 n = natDigitsGo f2 n := by
  induction n using Nat.strong_induction_on generalizing f1 f2 with
  | _ n ih =>
  cases f1 with
  | zero => omega
  | succ g1 =>
    cases f2 with
    | zero => omega
    | succ g2 =>
      rw [natDigitsGo, natDigitsGo]
      by_cases h : n < 10
      · simp [h]
      · simp only [if_neg h]
        have hdiv : n / 10 < n := Nat.div_lt_self (by omega) (by omega)
        rw [ih (n / 10) hdiv g1 g2 (by omega) (by omega)]

theorem natDigits_eq (n : Nat) :
    natDigits n =
      if n < 10 then [Nat.digitChar n]
      else natDigits (n / 10) ++ [Nat.digitChar (n % 10)] := by
  rw [natDigits, natDigitsGo]
  by_cases h : n < 10
  · simp [h]
  · simp only [if_neg h]
    have hdiv : n / 10 < n := Nat.div_lt_self (by omega) (by omega)
    rw [natDigits, natDigitsGo_congr (n / 10) n (n / 10 + 1) (by omega) (by omega)]

theorem digitChar_isDig (d : Nat) (h : d < 10) : isDig (Nat.digitChar d) = true := by
  interval_cases d <;> decide

theorem digitVal_digitChar (d : Nat) (h : d < 10) : digitVal (Nat.digitChar d) = d := by
  interval_cases d <;> decide

theorem isDig_not_sign (c : Char) (h : isDig c = true) : ¬ c = '-' ∧ ¬ c = '+' := by
  constructor
  · intro h2
    subst h2
    exact absurd h (by decide)
  · intro h2
    subst h2
    exact absurd h (by decide)

theorem natDigits_ne_nil (n : Nat) : natDigits n ≠ [] := by
  rw [natDigits_eq]
  by_cases h : n < 10
  · simp [h]
  · simp [h]

theorem natDigits_all_isDig (n : Nat) : (natDigits n).all isDig = true := by
  induction n using Nat.strong_induction_on with
  | _ n ih =>
  rw [natDigits_eq]
  by_cases h : n < 10
  · simp only [if_pos h, List.all_cons, List.all_nil, Bool.and_true]
    exact digitChar_isDig n h
  · simp only [if_neg h, List.all_append, List.all_cons, List.all_nil, Bool.and_true]
    rw [ih (n / 10) (Nat.div_lt_self (by omega) (by omega))]
    rw [digitChar_isDig (n % 10) (by omega)]
    rfl

theorem natDigits_foldl (n : Nat) :
    (natDigits n).foldl (fun acc c => acc * 10 + digitVal c) 0 = n := by
  induction n using Nat.strong_induction_on with
  | _ n ih =>
  rw [natDigits_eq]
  by_cases h : n < 10
  · simp only [if_pos h, List.foldl_cons, List.foldl_nil]
    rw [digitVal_digitChar n h]
    omega
  · simp only [if_neg h, List.foldl_append, List.foldl_cons, List.foldl_nil]
    rw [ih (n / 10) (Nat.div_lt_self (by omega) (by omega))]
    rw [digitVal_digitChar (n % 10) (by omega)]
    omega

theorem parseDigits_natDigits (n : Nat) : parseDigits (natDigits n) = some n := by
  rw [parseDigits, if_pos ⟨natDigits_ne_nil n, natDigits_all_isDig n⟩, natDigits_foldl]

theorem natDigits_head_isDig (n : Nat) :
    ∃ c cs, natDigits n = c :: cs ∧ isDig c = true := by
  induction n using Nat.strong_induction_on with
  | _ n ih =>
  rw [natDigits_eq]
  by_cases h : n < 10
  · exact ⟨Nat.digitChar n, [], by simp [h], digitChar_isDig n h⟩
  · obtain ⟨c, cs, hc, hdig⟩ := ih (n / 10) (Nat.div_lt_self (by omega) (by omega))
    exact ⟨c, cs ++ [Nat.digitChar (n % 10)], by simp [h, hc], hdig⟩

theorem parseSigned_natDigits (m : Nat) :
    parseSigned (natDigits m) = some (m : Int) := by
  obtain ⟨c, cs, hc, hdig⟩ := natDigits_head_isDig m
  obtain ⟨hm, hp⟩ := isDig_not_sign c hdig
  rw [hc, parseSigned, if_neg hm, if_neg hp, ← hc, parseDigits_natDigits]
  rfl

theorem parseSigned_fromInt (v : Int) : parseSigned (fromInt v) = some v := by
  rw [fromInt]
  by_cases hv : v < 0
  · rw [if_pos hv, parseSigned, if_pos rfl, parseDigits_natDigits]
    simp only [Option.map_some']
    congr 1
    omega
  · rw [if_neg hv, parseSigned_natDigits]
    congr 1
    omega

theorem toSigned_fromInt (lo hi v : Int) (h1 : lo ≤ v) (h2 : v ≤ hi) :
    toSigned lo hi (fromInt v) = (v, 0) := by
  rw [toSigned, parseSigned_fromInt]
  simp only [if_neg (by omega : ¬ (v < lo ∨ hi < v))]

theorem toSigned_roundtrip (lo hi : Int) (s : List Char)
    (h : (toSigned lo hi s).2 = 0) :
    toSigned lo hi (fromInt (toSigned lo hi s).1) = toSigned lo hi s := by
  rcases hp : parseSigned s with _ | v
  · simp [toSigned, hp, EINVAL] at h
  · by_cases hout : v < lo ∨ hi < v
    · simp [toSigned, hp, hout, ERANGE] at h
    · have hts : toSigned lo hi s = (v, 0) := by
        simp [toSigned, hp, hout]
      rw [hts]
      exact toSigned_fromInt lo hi v (by omega) (by omega)

theorem toUnsigned_fromNat (hi n : Nat) (h : n ≤ hi) :
    toUnsigned hi (fromNat n) = (n, 0) := by
  rw [toUnsigned, fromNat, parseDigits_natDigits]
  simp only [if_neg (by omega : ¬ hi < n)]

theorem toUnsigned_roundtrip (hi : Nat) (s : List Char)
    (h : (toUnsigned hi s).2 = 0) :
    toUnsigned hi (fromNat (toUnsigned hi s).1) = toUnsigned hi s := by
  rcases hp : parseDigits s with _ | v
  · simp [toUnsigned, hp, EINVAL] at h
  · by_cases hout : hi < v
    · simp [toUnsigned, hp, hout, ERANGE] at h
    · have hts : toUnsigned hi s = (v, 0) := by
        simp [toUnsigned, hp, hout]
      rw [hts]
      exact toUnsigned_fromNat hi v (by omega)

theorem isIntLexeme_iff_parseSigned (s : List Char) :
    isIntLexeme s = true ↔ (parseSigned s).isSome = true := by
  cases s with
  | nil => simp [isIntLexeme, parseSigned]
  | cons c rest =>
    by_cases hm : c = '-'
    · subst hm
      rw [isIntLexeme, if_pos (Or.inl rfl), parseSigned, if_pos rfl]
      by_cases hp : rest ≠ [] ∧ rest.all isDig
      · simp [parseDigits, hp]
        try tauto
      · simp [parseDigits, hp]
        try tauto
    · by_cases hq : c = '+'
      · subst hq
        rw [isIntLexeme, if_pos (Or.inr rfl), parseSigned, if_neg (by decide), if_pos rfl]
        by_cases hp : rest ≠ [] ∧ rest.all isDig
        · simp [parseDigits, hp]
          try tauto
        · simp [parseDigits, hp]
          try tauto
      · rw [isIntLexeme, if_neg (by tauto : ¬ (c = '-' ∨ c = '+')), parseSigned,
          if_neg hm, if_neg hq]
        by_cases hp : (c :: rest).all isDig
        · simp [parseDigits, hp]
        · simp [parseDigits, hp]

theorem toSigned_code (lo hi : Int) (s : List Char) :
    (toSigned lo hi s).2 = 0 ∨ (toSigned lo hi s).2 = EINVAL ∨
      (toSigned lo hi s).2 = ERANGE := by
  rw [toSigned]
  rcases parseSigned s with _ | v
  · simp
  · by_cases hout : v < lo ∨ hi < v
    · simp [hout]
    · simp [hout]

/-- Claim C5: `to_int32` returns the parsed value with error slot 0 on
success; returns 0 with the error slot set to EINVAL when the input is not a
valid int32 representation (an optional sign followed by one or more digits);
and returns 0 with ERANGE when the input is lexically valid but out of
int32's range; the error slot is always one of 0, EINVAL, ERANGE (failure is
a return value, never a raise — the parser is a total function); in
particular `to_int32("99999999999999")` fails with ERANGE and
`to_int32("abc")` fails with EINVAL. -/
theorem to_int32_spec_C5 :
    (∀ s : List Char, isIntLexeme s = false → to_int32 s = (0, EINVAL)) ∧
    (∀ (s : List Char) (v : Int), parseSigned s = some v →
      -(2 ^ 31) ≤ v → v ≤ 2 ^ 31 - 1 → to_int32 s = (v, 0)) ∧
    (∀ (s : List Char) (v : Int), parseSigned s = some v →
      (v < -(2 ^ 31) ∨ 2 ^ 31 - 1 < v) → to_int32 s = (0, ERANGE)) ∧
    (∀ s : List Char, isIntLexeme s = true ↔ (parseSigned s).isSome = true) ∧
    (∀ s : List Char,
      (to_int32 s).2 = 0 ∨ (to_int32 s).2 = EINVAL ∨ (to_int32 s).2 = ERANGE) ∧
    to_int32 "99999999999999".toList = (0, ERANGE) ∧
    to_int32 "abc".toList = (0, EINVAL) := by
  refine ⟨?_, ?_, ?_, isIntLexeme_iff_parseSigned, ?_, by decide, by decide⟩
  · intro s h
    have hnone : parseSigned s = none := by
      rcases hp : parseSigned s with _ | v
      · rfl
      · exfalso
        have := (isIntLexeme_iff_parseSigned s).mpr (by simp [hp])
        rw [h] at this
        exact absurd this (by decide)
    simp [to_int32, toSigned, hnone]
  · intro s v hp h1 h2
    simp [to_int32, toSigned, hp]
    omega
  · intro s v hp hout
    simp [to_int32, toSigned, hp]
    omega
  · intro s
    exact toSigned_code _ _ s

/-- Witness for C5: a successful parse applied at a concrete input. -/
theorem to_int32_spec_C5_witness :
    to_int32 "42".toList = (42, 0) :=
  to_int32_spec_C5.2.1 "42".toList 42 (by decide) (by decide) (by decide)

/-- Claim C6: for every string that parses successfully (a valid decimal
integer literal within range), formatting the parsed value with `from` and
re-parsing gives back the same parse result, for each of
`to_int32`/`to_int64`/`to_uint32`/`to_uint64`. -/
theorem roundtrip_spec_C6 :
    (∀ s : List Char, (to_int32 s).2 = 0 →
      to_int32 (fromInt (to_int32 s).1) = to_int32 s) ∧
    (∀ s : List Char, (to_int64 s).2 = 0 →
      to_int64 (fromInt (to_int64 s).1) = to_int64 s) ∧
    (∀ s : List Char, (to_uint32 s).2 = 0 →
      to_uint32 (fromNat (to_uint32 s).1) = to_uint32 s) ∧
    (∀ s : List Char, (to_uint64 s).2 = 0 →
      to_uint64 (fromNat (to_uint64 s).1) = to_uint64 s) :=
  ⟨fun s h => toSigned_roundtrip _ _ s h, fun s h => toSigned_roundtrip _ _ s h,
   fun s h => toUnsigned_roundtrip _ s h, fun s h => toUnsigned_roundtrip _ s h⟩

/-- Witness for C6: the int32 round-trip applied at a concrete input. -/
theorem roundtrip_spec_C6_witness :
    to_int32 (fromInt (to_int32 "-42".toList).1) = to_int32 "-42".toList :=
  roundtrip_spec_C6.1 "-42".toList (by decide)

/-! ## Helper lemmas for the debug formatter and cat -/

theorem foldl_render {α : Type} (f : α → List Char) (l : List α) (acc : List Char) :
    l.foldl (fun a e => a ++ f e ++ [',']) acc =
      acc ++ (l.map (fun e => f e ++ [','])).flatten := by
  induction l generalizing acc with
  | nil => simp
  | cons x xs ih =>
    rw [List.foldl_cons, ih]
    simp

theorem flatten_trail_dropLast {α : Type} (f : α → List Char) (l : List α) (h : l ≠ []) :
    ((l.map (fun e => f e ++ [','])).flatten).dropLast = commaJoin (l.map f) := by
  induction l with
  | nil => simp at h
  | cons x xs ih =>
    cases xs with
    | nil => simp [commaJoin, List.dropLast_concat]
    | cons y ys =>
      have hrest : ((y :: ys).map (fun e => f e ++ [','])).flatten ≠ [] := by
        simp
      rw [List.map_cons, List.flatten_cons]
      rw [show f x ++ [','] ++ ((y :: ys).map (fun e => f e ++ [','])).flatten =
        f x ++ ([','] ++ ((y :: ys).map (fun e => f e ++ [','])).flatten) by simp]
      rw [List.dropLast_append_of_ne_nil _ (by simp)]
      rw [show ([','] ++ ((y :: ys).map (fun e => f e ++ [','])).flatten).dropLast =
        ',' :: (((y :: ys).map (fun e => f e ++ [','])).flatten).dropLast by
        rw [List.singleton_append, List.dropLast_cons_of_ne_nil hrest]]
      rw [ih (by simp)]
      try simp [commaJoin]

theorem dbg_eq_commaJoin {α : Type} (f : α → List Char) (l : List α) (c1 c2 : Char)
    (h : l ≠ []) : dbg f l c1 c2 = c1 :: commaJoin (l.map f) ++ [c2] := by
  cases l with
  | nil => simp at h
  | cons x xs =>
    rw [dbg, dbgRange, setBack, foldl_render]
    have hfl : (((x :: xs).map (fun e => f e ++ [','])).flatten) ≠ [] := by
      simp
    rw [List.nil_append, show [c1] ++ ((x :: xs).map (fun e => f e ++ [','])).flatten =
      c1 :: ((x :: xs).map (fun e => f e ++ [','])).flatten by simp]
    rw [List.dropLast_cons_of_ne_nil hfl]
    rw [flatten_trail_dropLast f (x :: xs) (by simp)]

theorem catGo_acc {α : Type} (f : α → List Char) (l : List α) (s : List Char) :
    catGo f s l = s ++ catGo f [] l := by
  induction l generalizing s with
  | nil => simp [catGo]
  | cons x v ih =>
    rw [catGo, ih (s ++ f x), catGo, ih ([] ++ f x)]
    simp

/-- Claim C7: `dbg` renders an ordered sequence as the elements joined by
`','` between the open and close brackets with no dangling trailing
separator: the empty collection renders as exactly the two brackets, a
single-element collection has no separator, a pair renders as `key:value`
with both sides rendered recursively, and string-like values are wrapped in
double quotes; in particular `dbg [1,2,3] = "[1,2,3]"`, `dbg [] = "[]"`, and
`dbg (1, "a") = "1:\"a\""`. -/
theorem dbg_spec_C7 :
    (∀ (α : Type) (f : α → List Char) (l : List α) (c1 c2 : Char), l ≠ [] →
      dbg f l c1 c2 = c1 :: commaJoin (l.map f) ++ [c2]) ∧
    (∀ (α : Type) (f : α → List Char) (c1 c2 : Char),
      dbg f ([] : List α) c1 c2 = [c1, c2]) ∧
    (∀ (α : Type) (f : α → List Char) (a : α) (c1 c2 : Char),
      dbg f [a] c1 c2 = c1 :: f a ++ [c2]) ∧
    (∀ s : List Char, dbgStr s = '"' :: s ++ ['"']) ∧
    (∀ (α β : Type) (fk : α → List Char) (fv : β → List Char) (x : α × β),
      dbgPair fk fv x = fk x.1 ++ ':' :: fv x.2) ∧
    dbg dbgInt [1, 2, 3] '[' ']' = "[1,2,3]".toList ∧
    dbg dbgInt ([] : List Int) '[' ']' = "[]".toList ∧
    dbgPair dbgInt dbgStr (1, "a".toList) = "1:\"a\"".toList := by
  refine ⟨fun α f l c1 c2 h => dbg_eq_commaJoin f l c1 c2 h, ?_, ?_,
    fun s => rfl, fun α β fk fv x => rfl, by decide, by decide, by decide⟩
  · intro α f c1 c2
    rw [dbg, dbgRange]
    simp
  · intro α f a c1 c2
    rw [dbg_eq_commaJoin f [a] c1 c2 (by simp)]
    simp [commaJoin]

/-- Witness for C7: the comma-join form applied at a concrete input. -/
theorem dbg_spec_C7_witness :
    dbg dbgInt [(5 : Int)] '[' ']' = '[' :: commaJoin ([(5 : Int)].map dbgInt) ++ [']'] :=
  dbg_spec_C7.1 Int dbgInt [(5 : Int)] '[' ']' (by decide)

/-- Claim C10: `str::cat()` with no arguments returns the empty string, and
`str::cat(x, v...)` is the rendering of the head argument (the same
stream-output rendering `str::from` produces) followed by `str::cat(v...)`:
concatenation of the renderings strictly left to right with the empty call as
identity. -/
theorem cat_spec_C10 :
    (∀ (α : Type) (f : α → List Char), cat f ([] : List α) = []) ∧
    (∀ (α : Type) (f : α → List Char) (x : α) (v : List α),
      cat f (x :: v) = fromVal f x ++ cat f v) := by
  refine ⟨fun α f => rfl, ?_⟩
  intro α f x v
  rw [cat, catGo, catGo_acc]
  rfl

end Str